import Mathlib

/-!
Verification of the marathon qualifying-time normalization and reconciliation
engine.  The Python sources are embedded shallowly: strings are lists of
characters, the relational store is a list of records, SQL parameter binding
with NULL follows three-valued comparison semantics, and a Python function
that can raise an uncaught exception is modelled with an `Option` result where
`none` marks the exception.  All definitions are executable.
-/

namespace MarathonQT

/-- Python strings are modelled as lists of characters. -/
abbrev Str := List Char

/-- Convert a Lean string literal into the character-list model. -/
def strL (s : String) : Str := s.toList

/-- Characters stripped by Python str.strip and matched by the regex class
backslash-s (space, tab, newline, carriage return, vertical tab, form feed). -/
def isSpaceC (c : Char) : Bool :=
  c == ' ' || c == '\t' || c == '\n' || c == '\r' || c == '\x0b' || c == '\x0c'

/-- ASCII decimal digit test, the model of the regex class backslash-d.
The Python class also admits non-ASCII decimal digits; the repository's
inputs are ASCII. -/
def isDigitC (c : Char) : Bool := 48 ≤ c.toNat && c.toNat ≤ 57

/-- ASCII lower-casing of one character, the model of Python str.lower.
Python also lower-cases non-ASCII letters; the repository's inputs are ASCII. -/
def lowerChar (c : Char) : Char :=
  if 65 ≤ c.toNat ∧ c.toNat ≤ 90 then Char.ofNat (c.toNat + 32) else c

/-- Model of Python str.lower. -/
def pyLower (s : Str) : Str := s.map lowerChar

/-- Model of Python str.strip (drop leading and trailing whitespace). -/
def pyStrip (s : Str) : Str :=
  ((s.dropWhile isSpaceC).reverse.dropWhile isSpaceC).reverse

/-- If the literal pat is a prefix of s, return the remainder of s after it. -/
def afterLit : Str → Str → Option Str
  | [], s => some s
  | _, [] => none
  | p :: ps, c :: cs => if p = c then afterLit ps cs else none

/-- One fuelled step list for Python str.replace: scan left to right, and at
each position either rewrite a non-overlapping occurrence of pat or keep one
character.  The fuel only needs to cover the length of the scanned string; an
occurrence consumes at least one character of it.  (The source never calls
replace with an empty pattern, whose Python semantics would differ.) -/
def replaceAux (pat rep : Str) : Nat → Str → Str
  | 0, s => s
  | _ + 1, [] => []
  | fuel + 1, c :: cs =>
    match afterLit pat (c :: cs) with
    | some rest =>
      if pat.isEmpty then c :: replaceAux pat rep fuel cs
      else rep ++ replaceAux pat rep fuel rest
    | none => c :: replaceAux pat rep fuel cs

/-- Model of Python str.replace. -/
def replaceL (pat rep s : Str) : Str := replaceAux pat rep s.length s

/-- Model of Python str.split with a one-character separator: the resulting
groups, in order, including empty groups. -/
def pySplit (sep : Char) : Str → List Str
  | [] => [[]]
  | c :: cs =>
    match pySplit sep cs with
    | [] => [[]]
    | g :: gs => if c = sep then [] :: g :: gs else (c :: g) :: gs

/-- Numeric value of a list of ASCII digits (most significant first). -/
def digitVal (d : Str) : Nat := d.foldl (fun a c => 10 * a + (c.toNat - 48)) 0

/-- Parse a non-empty, all-digit string to a natural number; otherwise fail. -/
def parseDigits (d : Str) : Option Nat :=
  if d ≠ [] ∧ d.all isDigitC then some (digitVal d) else none

/-- Model of the Python built-in int applied to a string: strip whitespace,
admit an optional sign, then require a non-empty digit run.  (Python also
accepts underscore separators and non-ASCII digits; the repository's inputs
use neither.)  Failure models the ValueError raised by int. -/
def pyInt (s : Str) : Option Int :=
  let t := pyStrip s
  if t.head? = some '-' then (parseDigits t.tail).map (fun n => -(n : Int))
  else if t.head? = some '+' then (parseDigits t.tail).map (fun n => (n : Int))
  else (parseDigits t).map (fun n => (n : Int))

/-- Apply pyInt to every token; fail if any token fails.  This models the
list comprehension of int calls inside try/except in parse_time_to_seconds:
one ValueError discards the whole list. -/
def mapIntAll : List Str → Option (List Int)
  | [] => some []
  | p :: ps => (pyInt p).bind (fun v => (mapIntAll ps).map (fun vs => v :: vs))

/-- The cleanup phase of parse_time_to_seconds (src/main.py lines 110-111):
strip, lower, delete the word sub, strip again, then rewrite the unit
suffixes hrs, hr, min to colons and delete sec. -/
def cleanedTime (text : Str) : Str :=
  replaceL (strL (r"sec")) []
    (replaceL (strL (r"min")) [':']
      (replaceL (strL (r"hr")) [':']
        (replaceL (strL (r"hrs")) [':']
          (pyStrip (replaceL (strL (r"sub")) [] (pyLower (pyStrip text)))))))

/-- The non-empty colon-separated tokens of the cleaned input
(src/main.py line 112). -/
def timeTokens (text : Str) : List Str :=
  (pySplit ':' (cleanedTime text)).filter (fun p => p ≠ [])

/-- Model of parse_time_to_seconds (src/main.py lines 106-125).  The input is
optional; None and the empty string are both falsy.  The result None models
the Python return value None (the function never raises: the only fallible
step, int conversion, is wrapped in try/except). -/
def parse_time_to_seconds (text : Option Str) : Option Int :=
  match text with
  | none => none
  | some t =>
    if t = [] then none
    else
      match mapIntAll (timeTokens t) with
      | none => none
      | some l =>
        match l with
        | [h, m, s] => some (h * 3600 + m * 60 + s)
        | [a, b] => some (0 * 3600 + a * 60 + b)
        | [a] => some (0 * 3600 + a * 60 + 0)
        | _ => none

/-- Maximal leading ASCII digit run, the model of a greedy backslash-d-plus. -/
def takeDigits (s : Str) : Str := s.takeWhile isDigitC

/-- Model of re.match applied to the pattern sub (d+):(d+) in time_to_seconds
(src/database.py lines 15-18): the literal word sub and a space, a digit run,
a colon, a digit run; anything may follow.  Backtracking never helps: the
characters after a maximal digit run cannot extend a digit match. -/
def matchSubPattern (t : Str) : Option (Nat × Nat) :=
  match afterLit (strL (r"sub ")) t with
  | none => none
  | some r1 =>
    let d1 := takeDigits r1
    if d1 = [] then none
    else
      match r1.drop d1.length with
      | ':' :: r3 =>
        let d2 := takeDigits r3
        if d2 = [] then none else some (digitVal d1, digitVal d2)
      | _ => none

/-- One optional group digits-then-hr-then-optional-s of the Boston pattern:
on success the digit value and the remaining text, on failure 0 and the text
unmoved.  Greedy matching needs no backtracking here: the character after a
maximal digit run is not a digit, so the following literal can only be tried
at one position. -/
def matchHrGroup (t : Str) : Nat × Str :=
  let d := takeDigits t
  let r := t.drop d.length
  if d ≠ [] ∧ (strL (r"hr")).isPrefixOf r then
    match r.drop 2 with
    | 's' :: r2 => (digitVal d, r2)
    | r2 => (digitVal d, r2)
  else (0, t)

/-- One optional group digits-then-literal-unit of the Boston pattern. -/
def matchUnitGroup (unit : Str) (t : Str) : Nat × Str :=
  let d := takeDigits t
  let r := t.drop d.length
  if d ≠ [] ∧ unit.isPrefixOf r then (digitVal d, r.drop unit.length)
  else (0, t)

/-- Model of re.match applied to the all-optional Boston pattern in
time_to_seconds (src/database.py line 21): an optional digit run suffixed hr
with optional s, optional whitespace, an optional digit run suffixed min,
optional whitespace, an optional digit run suffixed sec.  Each optional piece
matches greedily and independently; since every piece is optional the whole
pattern always matches (possibly matching the empty prefix). -/
def matchBostonPattern (t : Str) : Nat × Nat × Nat :=
  let hp := matchHrGroup t
  let mp := matchUnitGroup (strL (r"min")) (hp.2.dropWhile isSpaceC)
  let sp := matchUnitGroup (strL (r"sec")) (mp.2.dropWhile isSpaceC)
  (hp.1, mp.1, sp.1)

/-- Model of time_to_seconds (src/database.py lines 10-29).  The input is
lower-cased and stripped; the sub grammar is tried first, then the Boston
grammar.  Because the Boston pattern always matches (a zero-length regex
match object is still truthy), the final return None in the source is dead
code and the function always returns a number on string input. -/
def time_to_seconds (time_str : Str) : Option Int :=
  let t := pyStrip (pyLower time_str)
  match matchSubPattern t with
  | some hm => some ((hm.1 * 3600 + hm.2 * 60 : Nat) : Int)
  | none =>
    let hms := matchBostonPattern t
    some ((hms.1 * 3600 + hms.2.1 * 60 + hms.2.2 : Nat) : Int)

/-- Substring containment, the model of the Python in operator on strings. -/
def containsSub (pat : Str) : Str → Bool
  | [] => pat.isEmpty
  | c :: cs => pat.isPrefixOf (c :: cs) || containsSub pat cs

/-- Accumulator pass behind digitRuns: cur holds the reversed digits of the
run currently being read. -/
def digitRunsAux (cur : Str) : Str → List Str
  | [] => if cur.isEmpty then [] else [cur.reverse]
  | c :: cs =>
    if isDigitC c then digitRunsAux (c :: cur) cs
    else if cur.isEmpty then digitRunsAux [] cs
    else cur.reverse :: digitRunsAux [] cs

/-- The maximal digit runs of a string in order, the model of re.findall with
the pattern backslash-d-plus. -/
def digitRuns (s : Str) : List Str := digitRunsAux [] s

/-- The label cleanup at the top of age_in_group (src/main.py line 26):
lower-case, unify the en dash to the ASCII hyphen, remove every space.
A one-character replace is a map; replacing by the empty string is a filter. -/
def cleanedGroup (group : Str) : Str :=
  ((pyLower group).map (fun c => if c = '–' then '-' else c)).filter
    (fun c => c ≠ ' ')

/-- Model of age_in_group (src/main.py lines 25-46).  The result none models
the uncaught ValueError that int raises when the label ends in a plus sign
whose preceding text is not an integer literal; every other path returns a
boolean. -/
def age_in_group (age : Int) (group : Str) : Option Bool :=
  let ag := cleanedGroup group
  if ag.getLast? = some '+' then
    match pyInt ag.dropLast with
    | some n => some (decide (n ≤ age))
    | none => none
  else if containsSub (strL (r"andover")) ag then
    match digitRuns ag with
    | [] => some false
    | n0 :: _ => some (decide ((digitVal n0 : Int) ≤ age))
  else
    match (digitRuns ag).map (fun d => (digitVal d : Int)) with
    | [a, b] => some (decide (a ≤ age ∧ age ≤ b))
    | [a] => some (decide (age = a))
    | _ => some false

/-- One inclusive bracket list walk, the model of the for loops in
get_age_group: the first pair whose range contains the age. -/
def lookupGroup : List (Int × Int) → Int → Option (Int × Int)
  | [], _ => none
  | g :: gs, age => if g.1 ≤ age ∧ age ≤ g.2 then some g else lookupGroup gs age

/-- The character of one decimal digit. -/
def digitChar (k : Nat) : Char :=
  match k with
  | 0 => '0'
  | 1 => '1'
  | 2 => '2'
  | 3 => '3'
  | 4 => '4'
  | 5 => '5'
  | 6 => '6'
  | 7 => '7'
  | 8 => '8'
  | 9 => '9'
  | _ => '*'

/-- Decimal digits of a natural number with explicit fuel; adequate whenever
the number is below 10 to the fuel. -/
def natReprAux : Nat → Nat → Str
  | 0, _ => []
  | fuel + 1, n =>
    if n < 10 then [digitChar n]
    else natReprAux fuel (n / 10) ++ [digitChar (n % 10)]

/-- Decimal text of a natural number. -/
def natRepr (n : Nat) : Str := natReprAux (n + 1) n

/-- Decimal text of an integer, the model of Python str formatting of an int. -/
def intRepr (i : Int) : Str :=
  if i < 0 then '-' :: natRepr i.natAbs else natRepr i.natAbs

/-- The f-string label of a closed bracket, lower dash upper. -/
def fmtRange (lo hi : Int) : Str := intRepr lo ++ '-' :: intRepr hi

/-- The London bracket table of get_age_group (src/main.py lines 56-60). -/
def londonGroups : List (Int × Int) :=
  [(18, 39), (40, 44), (45, 49), (50, 54),
   (55, 59), (60, 64), (65, 69), (70, 74),
   (75, 79), (80, 84), (85, 89), (90, 150)]

/-- The Boston-style bracket table of get_age_group (src/main.py lines 66-70). -/
def bostonGroups : List (Int × Int) :=
  [(18, 34), (35, 39), (40, 44), (45, 49), (50, 54),
   (55, 59), (60, 64), (65, 69), (70, 74), (75, 79),
   (80, 150)]

/-- The locations that share the Boston bracket scheme (src/main.py line 53). -/
def bostonStyle : List Str := [strL (r"boston"), strL (r"chicago"), strL (r"new york")]

/-- Model of get_age_group (src/main.py lines 49-82).  A Python branch whose
loop finds no bracket falls through to the final return of Unknown. -/
def get_age_group (age : Int) (location : Str) : Str :=
  let loc := pyLower (pyStrip location)
  if loc = strL (r"london") then
    match lookupGroup londonGroups age with
    | some g => if g.2 < 90 then fmtRange g.1 g.2 else strL (r"90+")
    | none => strL (r"Unknown")
  else if loc ∈ bostonStyle then
    match lookupGroup bostonGroups age with
    | some g => if g.1 = 80 then strL (r"80+") else fmtRange g.1 g.2
    | none => strL (r"Unknown")
  else if loc = strL (r"tokyo") ∨ loc = strL (r"berlin") then
    let lower := (age.fdiv 5) * 5
    let upper := lower + 4
    if 80 ≤ age then strL (r"80+") else fmtRange lower upper
  else strL (r"Unknown")

/-- A stored row of dbo.QualifyingTimes (src/database.py lines 75-96): the
natural key columns AgeGroup and Location, the time text columns and the
migrated numeric seconds columns.  Every column is nullable. -/
structure QTRow where
  ageGroup : Option Str
  women : Option Str
  men : Option Str
  location : Option Str
  womenSeconds : Option Int
  menSeconds : Option Int
deriving DecidableEq

/-- An incoming qualifying-times record as read from the scraped frame in
insert_qualifying_times: the Age Group, Location, Women and Men fields. -/
structure QTInput where
  ageGroup : Option Str
  location : Option Str
  women : Option Str
  men : Option Str
deriving DecidableEq

/-- SQL three-valued equality on a nullable string column against a bound
parameter, collapsed to a row filter: a NULL on either side never matches. -/
def sqlEqS (a b : Option Str) : Bool :=
  match a, b with
  | some x, some y => decide (x = y)
  | _, _ => false

/-- SQL three-valued equality on a nullable integer column. -/
def sqlEqI (a b : Option Int) : Bool :=
  match a, b with
  | some x, some y => decide (x = y)
  | _, _ => false

/-- The WHERE clause of insert_qualifying_times and query_top_times:
AgeGroup equals the bound parameter and Location equals the bound parameter. -/
def qtKeyMatch (pAg pLoc : Option Str) (r : QTRow) : Bool :=
  sqlEqS r.ageGroup pAg && sqlEqS r.location pLoc

/-- The UPDATE statement of insert_qualifying_times applied to one row:
refresh the non-key columns Women, Men, WomenSeconds and MenSeconds. -/
def qtSetFields (w m : Str) (r : QTRow) : QTRow :=
  { r with women := some w, men := some m,
           womenSeconds := time_to_seconds w, menSeconds := time_to_seconds m }

/-- The row INSERTed by insert_qualifying_times for one incoming record. -/
def qtNewRow (pAg pLoc : Option Str) (w m : Str) : QTRow :=
  { ageGroup := pAg, women := some w, men := some m, location := pLoc,
    womenSeconds := time_to_seconds w, menSeconds := time_to_seconds m }

/-- Model of one iteration of insert_qualifying_times (src/database.py lines
122-145) on one incoming record.  The time text columns are converted first
(lines 128-129): time_to_seconds raises AttributeError on a missing (None)
value, modelled by the none result, and in that case no storage statement
runs.  Then a COUNT decides between UPDATE (all rows matching the key) and
INSERT (append one row). -/
def insert_qualifying_times_row (tbl : List QTRow) (row : QTInput) :
    Option (List QTRow) :=
  match row.women, row.men with
  | some w, some m =>
    if 0 < (tbl.filter (qtKeyMatch row.ageGroup row.location)).length then
      some (tbl.map (fun r =>
        if qtKeyMatch row.ageGroup row.location r then qtSetFields w m r else r))
    else
      some (tbl ++ [qtNewRow row.ageGroup row.location w m])
  | _, _ => none

/-- A stored row of dbo.RaceData (src/database.py lines 49-72) and equally an
incoming race-metadata record: natural key RaceYear and Location plus the
refreshable columns.  Every column is nullable. -/
structure RDRow where
  raceYear : Option Int
  location : Option Str
  qualifyingText : Option Str
  linkText : Option Str
  linkUrl : Option Str
  scrapeDate : Option Str
  pageHash : Option Str
deriving DecidableEq

/-- The WHERE clause of insert_racedata: RaceYear and Location equality. -/
def rdKeyMatch (pYear : Option Int) (pLoc : Option Str) (r : RDRow) : Bool :=
  sqlEqI r.raceYear pYear && sqlEqS r.location pLoc

/-- Model of one iteration of insert_racedata (src/database.py lines 99-119):
COUNT on the key, then UPDATE of the non-key columns or INSERT of the row.
No field is validated and no conversion runs, so the operation is total. -/
def insert_racedata_row (tbl : List RDRow) (row : RDRow) : List RDRow :=
  if 0 < (tbl.filter (rdKeyMatch row.raceYear row.location)).length then
    tbl.map (fun r =>
      if rdKeyMatch row.raceYear row.location r then
        { r with qualifyingText := row.qualifyingText, linkText := row.linkText,
                 linkUrl := row.linkUrl, scrapeDate := row.scrapeDate,
                 pageHash := row.pageHash }
      else r)
  else tbl ++ [row]

/-- The ORDER BY key of query_top_times: rows with NULL seconds rank after
rows with a number (the CASE WHEN expression), then ascending seconds. -/
def secsLe (a b : Option Int) : Prop :=
  match a, b with
  | some x, some y => x ≤ y
  | some _, none => True
  | none, some _ => False
  | none, none => True

instance : DecidableRel secsLe := fun a b => by
  cases a <;> cases b <;> simp [secsLe] <;> infer_instance

/-- The gender projection of query_top_times: WomenSeconds or MenSeconds. -/
def rowSecs (isWomen : Bool) (r : QTRow) : Option Int :=
  if isWomen then r.womenSeconds else r.menSeconds

/-- The full ORDER BY relation of query_top_times for a given gender. -/
def qtOrder (isWomen : Bool) (a b : QTRow) : Prop :=
  secsLe (rowSecs isWomen a) (rowSecs isWomen b)

instance (w : Bool) : DecidableRel (qtOrder w) := fun a b => by
  unfold qtOrder
  infer_instance

instance (w : Bool) : IsTotal QTRow (qtOrder w) := by
  constructor
  intro a b
  unfold qtOrder
  cases ha : rowSecs w a <;> cases hb : rowSecs w b <;> simp [secsLe] <;> omega

instance (w : Bool) : IsTrans QTRow (qtOrder w) := by
  constructor
  intro a b c
  unfold qtOrder
  cases rowSecs w a <;> cases rowSecs w b <;> cases rowSecs w c <;>
    simp [secsLe] <;> omega

/-- The gender projection of query_top_times on the text columns: the SQL
column choice Women or Men. -/
def genderCol (isWomen : Bool) (r : QTRow) : Option Str :=
  if isWomen then r.women else r.men

/-- The WHERE-filtered rows of query_top_times in the ORDER BY order: rows
matching the bound Location and AgeGroup, sorted by the NULL-last seconds
order.  SQL leaves the relative order of ties unspecified; the model
realizes the ORDER BY with an insertion sort, one implementation of it. -/
def query_top_times_rows (tbl : List QTRow) (location ageGroup : Str)
    (isWomen : Bool) : List QTRow :=
  (tbl.filter (qtKeyMatch (some ageGroup) (some location))).insertionSort
    (qtOrder isWomen)

/-- Model of query_top_times (src/database.py lines 148-164).  A missing
(empty) location, age group or gender raises ValueError, modelled by none.
Otherwise the TOP (limit) key-matching rows in the ORDER BY order are
projected to the selected columns AgeGroup, gender time text, Location. -/
def query_top_times (tbl : List QTRow) (location ageGroup gender : Str)
    (limit : Nat) : Option (List (Option Str × Option Str × Option Str)) :=
  if location = [] ∨ ageGroup = [] ∨ gender = [] then none
  else
    let isWomen : Bool := pyLower gender = strL (r"women")
    some (((query_top_times_rows tbl location ageGroup isWomen).take limit).map
      (fun r => (r.ageGroup, genderCol isWomen r, r.location)))

/-- The two storage tables as the pipeline sees them. -/
structure PipeState where
  raceRows : List RDRow
  qualifyingRows : List QTRow
deriving DecidableEq

/-- Outcome of one run_pipeline call: either the completion of the whole body
or an abort with the uncaught NameError of line 191, carrying the storage
state at the abort. -/
inductive PipeResult where
  | completed : PipeState → PipeResult
  | nameError : PipeState → PipeResult
deriving DecidableEq

/-- The names bound at module level in src/main.py when run_pipeline runs:
the imports of lines 2-10 and the module functions of lines 13-222. -/
def mainModuleNames : List Str :=
  [strL (r"re"), strL (r"argparse"), strL (r"pd"), strL (r"Optional"),
   strL (r"logger"), strL (r"get_db_connection"), strL (r"RUNNER_AGE"),
   strL (r"RUNNER_GENDER"), strL (r"MARATHON_LOCATION"), strL (r"PERSONAL_BEST"),
   strL (r"create_tables"), strL (r"insert_racedata"), strL (r"insert_qualifying_times"),
   strL (r"scrape_london"), strL (r"scrape_boston"), strL (r"scrape_tokyo"),
   strL (r"scrape_berlin"), strL (r"scrape_chicago"), strL (r"scrape_new_york"),
   strL (r"_format_time"), strL (r"age_in_group"), strL (r"get_age_group"),
   strL (r"display_runner_qualifying_times"), strL (r"parse_time_to_seconds"),
   strL (r"print_pb_margin"), strL (r"display_pb_margin_for_all_locations"),
   strL (r"run_pipeline"), strL (r"parse_args"), strL (r"main")]

/-- The names bound in the local scope of run_pipeline (src/main.py lines
177-209): its parameters and the locals assigned in its body. -/
def runPipelineLocals : List Str :=
  [strL (r"runner_age"), strL (r"runner_gender"), strL (r"override_location"),
   strL (r"pb"), strL (r"conn"), strL (r"cursor"), strL (r"datasets"),
   strL (r"all_data"), strL (r"all_times"), strL (r"location"), strL (r"age_group")]

/-- The names the pd.concat calls of src/main.py lines 191-192 evaluate. -/
def concatReferencedNames : List Str :=
  [strL (r"london_data"), strL (r"boston_data"),
   strL (r"london_times"), strL (r"boston_times")]

/-- Model of run_pipeline (src/main.py lines 177-209) over the storage state.
The call connects, creates the tables (schema only: no rows change), scrapes
the six sources into the local datasets, and then line 191 evaluates the
names london_data, boston_data, london_times and boston_times.  Python
resolves a name against the local then the module scope and raises NameError
when it is bound in neither, which aborts the function before the
insert_racedata and insert_qualifying_times calls of lines 195-196.  The
completed branch stands for the rest of the body; it is proved unreachable
below because the four names are unbound, and the frames the dead branch
would insert therefore do not exist and are not modelled further. -/
def run_pipeline (runner_age : Int) (runner_gender : Str)
    (override_location pb : Option Str)
    (scraped : List (List RDRow × List QTInput)) (st : PipeState) : PipeResult :=
  let _datasets := scraped
  if concatReferencedNames.all
      (fun n => decide (n ∈ mainModuleNames ∨ n ∈ runPipelineLocals)) then
    PipeResult.completed st
  else
    PipeResult.nameError st

/-! Generic lemmas about the string model. -/

theorem isDigitC_bounds {c : Char} (h : isDigitC c = true) :
    48 ≤ c.toNat ∧ c.toNat ≤ 57 := by
  simp only [isDigitC, Bool.and_eq_true, decide_eq_true_eq] at h
  exact h

theorem char_ne_of_toNat {c d : Char} (h : c.toNat ≠ d.toNat) : c ≠ d :=
  fun he => h (he ▸ rfl)

theorem isSpaceC_eq_false {c : Char} (h : 43 ≤ c.toNat) : isSpaceC c = false := by
  simp only [isSpaceC, Bool.or_eq_false_iff, beq_eq_false_iff_ne]
  refine ⟨⟨⟨⟨⟨?_, ?_⟩, ?_⟩, ?_⟩, ?_⟩, ?_⟩ <;> exact char_ne_of_toNat (by simp <;> omega)

theorem lowerChar_eq_self {c : Char} (h : c.toNat < 65 ∨ 90 < c.toNat) :
    lowerChar c = c := by
  simp only [lowerChar]
  rw [if_neg (by omega)]

theorem dropWhile_eq_self_of {p : Char → Bool} {s : Str}
    (h : ∀ c ∈ s, p c = false) : s.dropWhile p = s := by
  cases s with
  | nil => rfl
  | cons c cs => simp [List.dropWhile, h c (by simp)]

theorem pyStrip_eq_self {s : Str} (h : ∀ c ∈ s, isSpaceC c = false) :
    pyStrip s = s := by
  unfold pyStrip
  rw [dropWhile_eq_self_of h, dropWhile_eq_self_of, List.reverse_reverse]
  intro c hc
  exact h c (List.mem_reverse.mp hc)

theorem pyLower_eq_self {s : Str} (h : ∀ c ∈ s, c.toNat < 65 ∨ 90 < c.toNat) :
    pyLower s = s := by
  unfold pyLower
  rw [List.map_congr_left (fun c hc => lowerChar_eq_self (h c hc))]
  simp

theorem afterLit_eq_none {p : Char} {ps : Str} {c : Char} {cs : Str}
    (h : c ≠ p) : afterLit (p :: ps) (c :: cs) = none := by
  simp only [afterLit]
  rw [if_neg (fun he => h he.symm)]

theorem replaceAux_eq_self {p0 : Char} {ps rep : Str} :
    ∀ (fuel : Nat) (s : Str), (∀ c ∈ s, c ≠ p0) →
      replaceAux (p0 :: ps) rep fuel s = s := by
  intro fuel
  induction fuel with
  | zero => intro s _; rfl
  | succ n ih =>
    intro s hs
    cases s with
    | nil => rfl
    | cons c cs =>
      simp only [replaceAux, afterLit_eq_none (hs c (by simp))]
      rw [ih cs (fun x hx => hs x (by simp [hx]))]

theorem replaceL_eq_self {p0 : Char} {ps rep s : Str}
    (hs : ∀ c ∈ s, c ≠ p0) : replaceL (p0 :: ps) rep s = s :=
  replaceAux_eq_self s.length s hs

theorem pySplit_ne_nil (sep : Char) (s : Str) : pySplit sep s ≠ [] := by
  cases s with
  | nil => simp [pySplit]
  | cons c cs =>
    simp only [pySplit]
    rcases pySplit sep cs with _ | ⟨g, gs⟩
    · simp
    · by_cases h : c = sep <;> simp [h]

theorem pySplit_no_sep {sep : Char} {s : Str} (h : ∀ c ∈ s, c ≠ sep) :
    pySplit sep s = [s] := by
  induction s with
  | nil => rfl
  | cons c cs ih =>
    have hcs := ih (fun x hx => h x (by simp [hx]))
    simp [pySplit, hcs, h c (by simp)]

theorem pySplit_append {sep : Char} {a : Str} (b : Str)
    (h : ∀ c ∈ a, c ≠ sep) :
    pySplit sep (a ++ sep :: b) = a :: pySplit sep b := by
  induction a with
  | nil =>
    rcases hq : pySplit sep b with _ | ⟨g, gs⟩
    · exact absurd hq (pySplit_ne_nil sep b)
    · simp [pySplit, hq]
  | cons c cs ih =>
    have hcs := ih (fun x hx => h x (by simp [hx]))
    simp [pySplit, hcs, h c (by simp)]

theorem parseDigits_of_digits {d : Str} (hne : d ≠ [])
    (hd : ∀ c ∈ d, isDigitC c = true) : parseDigits d = some (digitVal d) := by
  unfold parseDigits
  rw [if_pos ⟨hne, List.all_eq_true.mpr hd⟩]

theorem pyInt_digits {d : Str} (hne : d ≠ [])
    (hd : ∀ c ∈ d, isDigitC c = true) :
    pyInt d = some ((digitVal d : Nat) : Int) := by
  unfold pyInt
  have hstrip : pyStrip d = d := by
    refine pyStrip_eq_self (fun c hc => isSpaceC_eq_false ?_)
    have := isDigitC_bounds (hd c hc)
    omega
  rcases d with _ | ⟨c, cs⟩
  · exact absurd rfl hne
  · have hc := isDigitC_bounds (hd c (by simp))
    have hm : c ≠ '-' := char_ne_of_toNat (by simp; omega)
    have hp : c ≠ '+' := char_ne_of_toNat (by simp; omega)
    rw [hstrip]
    simp only [List.head?]
    rw [if_neg (by simp [hm]), if_neg (by simp [hp]),
      parseDigits_of_digits hne hd]
    rfl

theorem mapIntAll_eq_none_iff (ps : List Str) :
    mapIntAll ps = none ↔ ∃ p ∈ ps, pyInt p = none := by
  induction ps with
  | nil => simp [mapIntAll]
  | cons p ps ih =>
    rcases hp : pyInt p with _ | v
    · simp [mapIntAll, hp]
    · rcases hm : mapIntAll ps with _ | vs
      · have hex := ih.mp hm
        simp [mapIntAll, hp, hm, hex]
      · have hnone : ¬∃ x ∈ ps, pyInt x = none := by
          intro hc
          rw [ih.mpr hc] at hm
          exact absurd hm (by simp)
        simp [mapIntAll, hp, hm, hnone]

theorem mapIntAll_some_length {ps : List Str} {l : List Int}
    (h : mapIntAll ps = some l) : l.length = ps.length := by
  induction ps generalizing l with
  | nil => simp [mapIntAll] at h; simp [← h]
  | cons p ps ih =>
    simp only [mapIntAll] at h
    rcases hp : pyInt p with _ | v <;> rw [hp] at h
    · exact absurd h (by simp)
    · rcases hm : mapIntAll ps with _ | vs <;> rw [hm] at h
      · exact absurd h (by simp)
      · simp only [Option.map_some', Option.some_bind, Option.some.injEq] at h
        subst h
        simp [ih hm]

/-- Claim C1 counterexample: on the empty string, which contains no numeric
token, time_to_seconds returns 0 rather than the null the claim requires
(the all-optional Boston regex matches the empty string with every group
defaulted to 0). -/
theorem C1_counterexample_empty_input :
    time_to_seconds [] = some 0 ∧ time_to_seconds [] ≠ none := by decide

/-- Claim C1, amended: neither normalizer raises on string input.
parse_time_to_seconds returns null exactly when the input is missing or
empty, some colon-separated token of the cleaned text is not an integer
literal, or the token count is zero or above three; time_to_seconds never
returns null at all - on input with no recoverable numeric token it returns
the number 0. -/
theorem C1_time_normalizer_nullability :
    parse_time_to_seconds none = none
    ∧ (∀ t : Str, parse_time_to_seconds (some t) = none ↔
        (t = [] ∨ (∃ p ∈ timeTokens t, pyInt p = none)
          ∨ ¬(1 ≤ (timeTokens t).length ∧ (timeTokens t).length ≤ 3)))
    ∧ (∀ s : Str, (time_to_seconds s).isSome = true) := by
  refine ⟨rfl, ?_, ?_⟩
  · intro t
    by_cases ht : t = []
    · simp [parse_time_to_seconds, ht]
    · simp only [parse_time_to_seconds, if_neg ht]
      rcases hm : mapIntAll (timeTokens t) with _ | l
      · simp only [ht, false_or]
        have := (mapIntAll_eq_none_iff (timeTokens t)).mp hm
        simp [this]
      · have hlen := mapIntAll_some_length hm
        have hnone : ¬∃ p ∈ timeTokens t, pyInt p = none := by
          intro hcontra
          have := (mapIntAll_eq_none_iff (timeTokens t)).mpr hcontra
          rw [hm] at this
          exact absurd this (by simp)
        rcases l with _ | ⟨a, _ | ⟨b, _ | ⟨c, _ | ⟨d, rest⟩⟩⟩⟩
        · simp only [List.length_nil] at hlen
          constructor
          · intro _
            right; right
            intro hc
            omega
          · intro _
            rfl
        · simp only [List.length_singleton] at hlen
          constructor
          · intro hcontra
            exact absurd hcontra (by simp)
          · rintro (h1 | h2 | h3)
            · exact absurd h1 ht
            · exact absurd h2 hnone
            · exact absurd ⟨by omega, by omega⟩ h3
        · simp at hlen
          constructor
          · intro hcontra
            exact absurd hcontra (by simp)
          · rintro (h1 | h2 | h3)
            · exact absurd h1 ht
            · exact absurd h2 hnone
            · exact absurd ⟨by omega, by omega⟩ h3
        · simp at hlen
          constructor
          · intro hcontra
            exact absurd hcontra (by simp)
          · rintro (h1 | h2 | h3)
            · exact absurd h1 ht
            · exact absurd h2 hnone
            · exact absurd ⟨by omega, by omega⟩ h3
        · simp at hlen
          constructor
          · intro _
            right; right
            intro hc
            omega
          · intro _
            rfl
  · intro s
    unfold time_to_seconds
    rcases hms : matchSubPattern (pyStrip (pyLower s)) with _ | hm <;> simp [hms]

/-! Lemmas for the canonical colon-delimited grammar. -/

theorem cleanedTime_eq_self {t : Str}
    (h : ∀ c ∈ t, 48 ≤ c.toNat ∧ c.toNat ≤ 58) : cleanedTime t = t := by
  have hs : pyStrip t = t :=
    pyStrip_eq_self (fun c hc => isSpaceC_eq_false (by have := h c hc; omega))
  have hl : pyLower t = t :=
    pyLower_eq_self (fun c hc => Or.inl (by have := h c hc; omega))
  have hns : ∀ c ∈ t, c ≠ 's' := by
    intro c hc
    have h1 := h c hc
    have h2 : ('s').toNat = 115 := by decide
    exact char_ne_of_toNat (by omega)
  have hnh : ∀ c ∈ t, c ≠ 'h' := by
    intro c hc
    have h1 := h c hc
    have h2 : ('h').toNat = 104 := by decide
    exact char_ne_of_toNat (by omega)
  have hnm : ∀ c ∈ t, c ≠ 'm' := by
    intro c hc
    have h1 := h c hc
    have h2 : ('m').toNat = 109 := by decide
    exact char_ne_of_toNat (by omega)
  have hsub : replaceL (strL (r"sub")) [] t = t := replaceL_eq_self hns
  have hhrs : replaceL (strL (r"hrs")) [':'] t = t := replaceL_eq_self hnh
  have hhr : replaceL (strL (r"hr")) [':'] t = t := replaceL_eq_self hnh
  have hmin : replaceL (strL (r"min")) [':'] t = t := replaceL_eq_self hnm
  have hsec : replaceL (strL (r"sec")) [] t = t := replaceL_eq_self hns
  unfold cleanedTime
  rw [hs, hl, hsub, hs, hhrs, hhr, hmin, hsec]

theorem digit_chars_bounds {d : Str} (hd : ∀ c ∈ d, isDigitC c = true) :
    ∀ c ∈ d, 48 ≤ c.toNat ∧ c.toNat ≤ 58 := by
  intro c hc
  have := isDigitC_bounds (hd c hc)
  omega

theorem digit_ne_colon {c : Char} (hc : isDigitC c = true) : c ≠ ':' := by
  have h1 := isDigitC_bounds hc
  have h2 : (':').toNat = 58 := by decide
  exact char_ne_of_toNat (by omega)

theorem timeTokens_canonical {dh dm ds : Str}
    (hh : dh ≠ []) (hhd : ∀ c ∈ dh, isDigitC c = true)
    (hm : dm ≠ []) (hmd : ∀ c ∈ dm, isDigitC c = true)
    (hs : ds ≠ []) (hsd : ∀ c ∈ ds, isDigitC c = true) :
    timeTokens (dh ++ ':' :: (dm ++ ':' :: ds)) = [dh, dm, ds] := by
  have hchars : ∀ c ∈ dh ++ ':' :: (dm ++ ':' :: ds),
      48 ≤ c.toNat ∧ c.toNat ≤ 58 := by
    intro c hc
    simp only [List.mem_append, List.mem_cons] at hc
    rcases hc with h1 | h2 | h3 | h4 | h5
    · exact digit_chars_bounds hhd c h1
    · subst h2; decide
    · exact digit_chars_bounds hmd c h3
    · subst h4; decide
    · exact digit_chars_bounds hsd c h5
  unfold timeTokens
  rw [cleanedTime_eq_self hchars,
    pySplit_append _ (fun c hc => digit_ne_colon (hhd c hc)),
    pySplit_append _ (fun c hc => digit_ne_colon (hmd c hc)),
    pySplit_no_sep (fun c hc => digit_ne_colon (hsd c hc))]
  simp [List.filter, hh, hm, hs]

theorem takeWhile_append_of {p : Char → Bool} {d rest : Str}
    (hd : ∀ c ∈ d, p c = true)
    (hr : ∀ c, rest.head? = some c → p c = false) :
    (d ++ rest).takeWhile p = d := by
  induction d with
  | nil =>
    cases rest with
    | nil => rfl
    | cons c cs => simp [List.takeWhile, hr c rfl]
  | cons c cs ih =>
    simp only [List.cons_append, List.takeWhile, hd c (by simp), List.append_eq]
    rw [ih (fun x hx => hd x (by simp [hx]))]

theorem isPrefixOf_cons_false {a b : Char} {as bs : Str} (h : b ≠ a) :
    (a :: as).isPrefixOf (b :: bs) = false := by
  have hab : (a == b) = false := beq_eq_false_iff_ne.mpr (fun he => h he.symm)
  show (a == b && as.isPrefixOf bs) = false
  rw [hab, Bool.false_and]

/-- On input of a non-empty digit run followed by nothing or by a colon and
more digit-or-colon text, the Boston grammar binds no group and
time_to_seconds returns 0. -/
theorem time_to_seconds_digits_colon (dh rest : Str)
    (hh : dh ≠ []) (hhd : ∀ c ∈ dh, isDigitC c = true)
    (hchars : ∀ c ∈ dh ++ rest, 48 ≤ c.toNat ∧ c.toNat ≤ 58)
    (hr : rest.head? = some ':' ∨ rest = []) :
    time_to_seconds (dh ++ rest) = some 0 := by
  have hsl : pyStrip (pyLower (dh ++ rest)) = dh ++ rest := by
    rw [pyLower_eq_self (fun c hc => Or.inl (by have := hchars c hc; omega))]
    exact pyStrip_eq_self
      (fun c hc => isSpaceC_eq_false (by have := hchars c hc; omega))
  obtain ⟨c0, dh', rfl⟩ : ∃ c0 dh', dh = c0 :: dh' := by
    cases dh with
    | nil => exact absurd rfl hh
    | cons a as => exact ⟨a, as, rfl⟩
  have hsubm : matchSubPattern ((c0 :: dh') ++ rest) = none := by
    unfold matchSubPattern
    have hc0 : c0 ≠ 's' := by
      have h1 := isDigitC_bounds (hhd c0 (by simp))
      have h2 : ('s').toNat = 115 := by decide
      exact char_ne_of_toNat (by omega)
    have he : strL (r"sub ") = 's' :: strL (r"ub ") := rfl
    rw [he, List.cons_append, afterLit_eq_none hc0]
  have htake : ((c0 :: dh') ++ rest).takeWhile isDigitC = c0 :: dh' := by
    refine takeWhile_append_of hhd (fun c hc => ?_)
    rcases hr with h1 | h1
    · rw [h1] at hc
      cases hc
      decide
    · subst h1
      simp at hc
  have hdrop : ((c0 :: dh') ++ rest).drop (c0 :: dh').length = rest :=
    List.drop_left _ _
  have hpre : ∀ (x : Char) (xs : Str), 100 ≤ x.toNat →
      (x :: xs).isPrefixOf rest = false := by
    intro x xs hx
    rcases hr with h1 | h1
    · cases rest with
      | nil => simp at h1
      | cons rc rcs =>
        simp only [List.head?_cons, Option.some.injEq] at h1
        subst h1
        refine isPrefixOf_cons_false ?_
        have h2 : (':').toNat = 58 := by decide
        intro he
        rw [he] at h2
        omega
    · subst h1
      rfl
  have hhrpre : (strL (r"hr")).isPrefixOf rest = false := by
    have he : strL (r"hr") = 'h' :: ['r'] := rfl
    rw [he]
    exact hpre 'h' ['r'] (by decide)
  have hminpre : (strL (r"min")).isPrefixOf rest = false := by
    have he : strL (r"min") = 'm' :: ['i', 'n'] := rfl
    rw [he]
    exact hpre 'm' ['i', 'n'] (by decide)
  have hsecpre : (strL (r"sec")).isPrefixOf rest = false := by
    have he : strL (r"sec") = 's' :: ['e', 'c'] := rfl
    rw [he]
    exact hpre 's' ['e', 'c'] (by decide)
  have hnospace : ((c0 :: dh') ++ rest).dropWhile isSpaceC = (c0 :: dh') ++ rest :=
    dropWhile_eq_self_of
      (fun c hc => isSpaceC_eq_false (by have := hchars c hc; omega))
  have hhg : matchHrGroup ((c0 :: dh') ++ rest) = (0, (c0 :: dh') ++ rest) := by
    simp only [matchHrGroup, takeDigits, htake, hdrop, hhrpre]
    rw [if_neg (by simp)]
  have hmg : matchUnitGroup (strL (r"min")) ((c0 :: dh') ++ rest)
      = (0, (c0 :: dh') ++ rest) := by
    simp only [matchUnitGroup, takeDigits, htake, hdrop, hminpre]
    rw [if_neg (by simp)]
  have hsg : matchUnitGroup (strL (r"sec")) ((c0 :: dh') ++ rest)
      = (0, (c0 :: dh') ++ rest) := by
    simp only [matchUnitGroup, takeDigits, htake, hdrop, hsecpre]
    rw [if_neg (by simp)]
  have hbp : matchBostonPattern ((c0 :: dh') ++ rest) = (0, 0, 0) := by
    simp only [matchBostonPattern, hhg, hnospace, hmg, hsg]
  simp only [time_to_seconds, hsl, hsubm, hbp]
  simp

/-- Claim C2 counterexample: on the canonical text 3:35:00 (12900 seconds)
time_to_seconds returns 0, not the total seconds the claim requires, because
neither of its two grammars covers plain colon-delimited text; and neither
normalizer returns the canonical text at all, both return seconds only. -/
theorem C2_counterexample_colon_text :
    time_to_seconds (strL (r"3:35:00")) = some 0
    ∧ (some (0 : Int) ≠ some (12900 : Int)) := by decide

/-- Claim C2, amended: on text already in canonical H:MM:SS form (hours a
non-empty digit run, minutes and seconds two-digit runs below 60),
parse_time_to_seconds returns the total seconds h*3600+m*60+s; the canonical
text itself is not part of the return value, which is seconds only; and
time_to_seconds returns 0 on the same text, its grammars not covering it. -/
theorem C2_canonical_roundtrip_seconds (dh dm ds : Str)
    (hh : dh ≠ []) (hhd : ∀ c ∈ dh, isDigitC c = true)
    (hm2 : dm.length = 2) (hmd : ∀ c ∈ dm, isDigitC c = true)
    (hmv : digitVal dm < 60)
    (hs2 : ds.length = 2) (hsd : ∀ c ∈ ds, isDigitC c = true)
    (hsv : digitVal ds < 60) :
    parse_time_to_seconds (some (dh ++ ':' :: (dm ++ ':' :: ds)))
      = some ((digitVal dh : Int) * 3600 + (digitVal dm : Int) * 60
          + (digitVal ds : Int))
    ∧ time_to_seconds (dh ++ ':' :: (dm ++ ':' :: ds)) = some 0 := by
  have hm : dm ≠ [] := by
    intro he
    rw [he] at hm2
    simp at hm2
  have hs : ds ≠ [] := by
    intro he
    rw [he] at hs2
    simp at hs2
  constructor
  · have hne : dh ++ ':' :: (dm ++ ':' :: ds) ≠ [] := by
      cases dh with
      | nil => exact absurd rfl hh
      | cons a as => simp
    simp only [parse_time_to_seconds, if_neg hne,
      timeTokens_canonical hh hhd hm hmd hs hsd]
    simp [mapIntAll, pyInt_digits hh hhd, pyInt_digits hm hmd,
      pyInt_digits hs hsd]
  · refine time_to_seconds_digits_colon _ _ hh hhd ?_ (Or.inl ?_)
    · intro c hc
      rcases List.mem_append.mp hc with h1 | h2
      · exact digit_chars_bounds hhd c h1
      · rcases List.mem_cons.mp h2 with h3 | h4
        · subst h3; decide
        · rcases List.mem_append.mp h4 with h5 | h6
          · exact digit_chars_bounds hmd c h5
          · rcases List.mem_cons.mp h6 with h7 | h8
            · subst h7; decide
            · exact digit_chars_bounds hsd c h8
    · rfl

/-- Witness for C2 at the canonical text 3:35:00. -/
theorem C2_canonical_roundtrip_seconds_witness :
    parse_time_to_seconds (some (['3'] ++ ':' :: (['3', '5'] ++ ':' :: ['0', '0'])))
      = some ((digitVal ['3'] : Int) * 3600 + (digitVal ['3', '5'] : Int) * 60
          + (digitVal ['0', '0'] : Int))
    ∧ time_to_seconds (['3'] ++ ':' :: (['3', '5'] ++ ':' :: ['0', '0'])) = some 0 :=
  C2_canonical_roundtrip_seconds ['3'] ['3', '5'] ['0', '0'] (by decide)
    (by decide) (by decide) (by decide) (by decide) (by decide) (by decide)
    (by decide)

/-- Claim C5 counterexample: parse_time_to_seconds treats the bare integer 2
as minutes and returns 120, not the 7200 the claim (value times 3600, hours)
requires. -/
theorem C5_counterexample_bare_integer :
    parse_time_to_seconds (some (strL (r"2"))) = some 120
    ∧ ((120 : Int) ≠ 2 * 3600) := by decide

/-- Claim C5, amended: an input whose cleanup yields exactly one numeric
token is treated as minutes, not hours: parse_time_to_seconds returns the
token value times 60; and on a bare all-digit integer time_to_seconds
returns 0 (no unit suffix matches). -/
theorem C5_single_token_minutes :
    (∀ (t : Str) (p : Str) (v : Int), timeTokens t = [p] → pyInt p = some v →
      parse_time_to_seconds (some t) = some (v * 60))
    ∧ (∀ d : Str, d ≠ [] → (∀ c ∈ d, isDigitC c = true) →
        time_to_seconds d = some 0) := by
  constructor
  · intro t p v htok hint
    have ht : t ≠ [] := by
      intro he
      subst he
      rw [show timeTokens [] = [] from rfl] at htok
      exact absurd htok (by simp)
    rw [parse_time_to_seconds]
    rw [if_neg ht, htok]
    simp only [mapIntAll, hint, Option.some_bind, Option.map_some']
    norm_num
  · intro d hne hd
    have hch : ∀ c ∈ d ++ ([] : Str), 48 ≤ c.toNat ∧ c.toNat ≤ 58 := by
      rw [List.append_nil]
      exact digit_chars_bounds hd
    have hz := time_to_seconds_digits_colon d [] hne hd hch (Or.inr rfl)
    rw [List.append_nil] at hz
    exact hz

/-- Witness for C5 at the bare integer 45: 2700 seconds, i.e. 45 minutes. -/
theorem C5_single_token_minutes_witness :
    parse_time_to_seconds (some (strL (r"45"))) = some (45 * 60)
    ∧ time_to_seconds (strL (r"45")) = some 0 :=
  ⟨C5_single_token_minutes.1 (strL (r"45")) (strL (r"45")) 45 (by decide)
      (by decide),
   C5_single_token_minutes.2 (strL (r"45")) (by decide) (by decide)⟩

/-! Lemmas for the age-group label grammar. -/

theorem isPrefixOf_self : ∀ l : Str, l.isPrefixOf l = true := by
  intro l
  induction l with
  | nil => rfl
  | cons c cs ih =>
    show (c == c && cs.isPrefixOf cs) = true
    simp [ih]

theorem containsSub_append_self (a pat : Str) : containsSub pat (a ++ pat) = true := by
  induction a with
  | nil =>
    cases pat with
    | nil => rfl
    | cons p ps =>
      show ((p :: ps).isPrefixOf (p :: ps) || containsSub (p :: ps) ps) = true
      simp [isPrefixOf_self]
  | cons c cs ih =>
    show (pat.isPrefixOf (c :: (cs ++ pat)) || containsSub pat (cs ++ pat)) = true
    simp [ih]

theorem containsSub_eq_false {p0 : Char} {ps : Str} :
    ∀ {s : Str}, (∀ c ∈ s, c ≠ p0) → containsSub (p0 :: ps) s = false := by
  intro s
  induction s with
  | nil => intro _; rfl
  | cons c cs ih =>
    intro h
    show ((p0 :: ps).isPrefixOf (c :: cs) || containsSub (p0 :: ps) cs) = false
    rw [isPrefixOf_cons_false (h c (by simp)), ih (fun x hx => h x (by simp [hx]))]
    rfl

theorem digitRunsAux_digits {d : Str} (hd : ∀ c ∈ d, isDigitC c = true) :
    ∀ (cur rest : Str), digitRunsAux cur (d ++ rest)
      = digitRunsAux (d.reverse ++ cur) rest := by
  induction d with
  | nil => intro cur rest; rfl
  | cons c cs ih =>
    intro cur rest
    show digitRunsAux cur (c :: (cs ++ rest)) = _
    simp only [digitRunsAux, hd c (by simp), if_true]
    rw [ih (fun x hx => hd x (by simp [hx])) (c :: cur) rest]
    simp [List.append_assoc]

theorem digitRunsAux_nodigits {s : Str} (hs : ∀ c ∈ s, isDigitC c = false) :
    digitRunsAux [] s = [] := by
  induction s with
  | nil => rfl
  | cons c cs ih =>
    simp only [digitRunsAux, hs c (by simp)]
    simp [ih (fun x hx => hs x (by simp [hx]))]

theorem digitRunsAux_trailing {s : Str} (hs : ∀ c ∈ s, isDigitC c = false)
    {cur : Str} (hc : cur ≠ []) : digitRunsAux cur s = [cur.reverse] := by
  cases s with
  | nil =>
    show (if cur.isEmpty then [] else [cur.reverse]) = [cur.reverse]
    rw [if_neg (by simp [hc])]
  | cons c cs =>
    simp only [digitRunsAux, hs c (by simp)]
    rw [if_neg (by simp), if_neg (by simp [hc])]
    rw [digitRunsAux_nodigits (fun x hx => hs x (by simp [hx]))]

theorem digitRuns_digits {d : Str} (hne : d ≠ [])
    (hd : ∀ c ∈ d, isDigitC c = true) : digitRuns d = [d] := by
  unfold digitRuns
  have h1 : digitRunsAux [] (d ++ []) = digitRunsAux (d.reverse ++ []) [] :=
    digitRunsAux_digits hd [] []
  rw [List.append_nil] at h1
  rw [h1, List.append_nil]
  show (if d.reverse.isEmpty then [] else [d.reverse.reverse]) = [d]
  rw [if_neg (by simp [hne])]
  simp

theorem digitRuns_digits_append {d rest : Str} (hne : d ≠ [])
    (hd : ∀ c ∈ d, isDigitC c = true)
    (hrest : ∀ c ∈ rest, isDigitC c = false) : digitRuns (d ++ rest) = [d] := by
  unfold digitRuns
  rw [digitRunsAux_digits hd [] rest, List.append_nil,
    digitRunsAux_trailing hrest (by simp [hne])]
  simp

theorem digitRuns_range {da db : Str} (hna : da ≠ [])
    (hda : ∀ c ∈ da, isDigitC c = true) (hnb : db ≠ [])
    (hdb : ∀ c ∈ db, isDigitC c = true) {c : Char} (hc : isDigitC c = false) :
    digitRuns (da ++ c :: db) = [da, db] := by
  unfold digitRuns
  rw [digitRunsAux_digits hda [] (c :: db), List.append_nil]
  simp only [digitRunsAux, hc]
  rw [if_neg (by simp), if_neg (by simp [hna])]
  have h1 : digitRunsAux [] (db ++ []) = digitRunsAux (db.reverse ++ []) [] :=
    digitRunsAux_digits hdb [] []
  rw [List.append_nil] at h1
  rw [h1, List.append_nil]
  show _ :: (if db.reverse.isEmpty then [] else [db.reverse.reverse]) = [da, db]
  rw [if_neg (by simp [hnb])]
  simp

theorem getLast?_digit {d : Str} (hne : d ≠ [])
    (hd : ∀ c ∈ d, isDigitC c = true) :
    ∃ c, d.getLast? = some c ∧ isDigitC c = true := by
  induction d with
  | nil => exact absurd rfl hne
  | cons a as ih =>
    cases as with
    | nil => exact ⟨a, rfl, hd a (by simp)⟩
    | cons b bs =>
      obtain ⟨c, hc1, hc2⟩ := ih (by simp) (fun x hx => hd x (by simp [hx]))
      exact ⟨c, by rw [List.getLast?_cons_cons]; exact hc1, hc2⟩

theorem cleanedGroup_append (a b : Str) :
    cleanedGroup (a ++ b) = cleanedGroup a ++ cleanedGroup b := by
  simp [cleanedGroup, pyLower]

theorem cleanedGroup_eq_self {s : Str}
    (h : ∀ c ∈ s, (c.toNat < 65 ∨ 90 < c.toNat) ∧ c.toNat ≠ 8211 ∧ c.toNat ≠ 32) :
    cleanedGroup s = s := by
  unfold cleanedGroup
  rw [pyLower_eq_self (fun c hc => (h c hc).1)]
  have hfix : ∀ c ∈ s, (if c = '–' then '-' else c) = c := by
    intro c hc
    have h2 := (h c hc).2.1
    have h3 : ('–').toNat = 8211 := by decide
    rw [if_neg (char_ne_of_toNat (by omega))]
  have hmap : s.map (fun c => if c = '–' then '-' else c) = s := by
    rw [List.map_congr_left hfix]
    simp
  rw [hmap]
  rw [List.filter_eq_self.mpr (fun c hc => ?_)]
  have h2 := (h c hc).2.2
  have h3 : (' ').toNat = 32 := by decide
  simp only [decide_eq_true_eq]
  exact char_ne_of_toNat (by omega)

theorem cleanedGroup_digits {d : Str} (hd : ∀ c ∈ d, isDigitC c = true) :
    cleanedGroup d = d := by
  refine cleanedGroup_eq_self (fun c hc => ?_)
  have := isDigitC_bounds (hd c hc)
  exact ⟨Or.inl (by omega), by omega, by omega⟩

/-- Claim C4: age_in_group decides bracket membership for the recognized
shapes.  For every integer age: an open-ended label (digits then a plus sign,
or digits then the words and over) is true exactly when the age is at least
the bound; a closed range (digits, a hyphen, digits) is true exactly when the
age lies inclusively between the two values; a single number is true exactly
on equality; and in particular 85 in 80+, not 79 in 80+, not 45 in 40-44,
42 in 40-44. -/
theorem C4_age_in_group_shapes :
    (∀ (age : Int) (d : Str), d ≠ [] → (∀ c ∈ d, isDigitC c = true) →
      age_in_group age (d ++ ['+']) = some (decide ((digitVal d : Int) ≤ age)))
    ∧ (∀ (age : Int) (d : Str), d ≠ [] → (∀ c ∈ d, isDigitC c = true) →
        age_in_group age (d ++ strL (r" and over"))
          = some (decide ((digitVal d : Int) ≤ age)))
    ∧ (∀ (age : Int) (da db : Str), da ≠ [] → (∀ c ∈ da, isDigitC c = true) →
        db ≠ [] → (∀ c ∈ db, isDigitC c = true) →
        age_in_group age (da ++ '-' :: db)
          = some (decide ((digitVal da : Int) ≤ age ∧ age ≤ (digitVal db : Int))))
    ∧ (∀ (age : Int) (d : Str), d ≠ [] → (∀ c ∈ d, isDigitC c = true) →
        age_in_group age d = some (decide (age = (digitVal d : Int))))
    ∧ age_in_group 85 (strL (r"80+")) = some true
    ∧ age_in_group 79 (strL (r"80+")) = some false
    ∧ age_in_group 45 (strL (r"40-44")) = some false
    ∧ age_in_group 42 (strL (r"40-44")) = some true := by
  refine ⟨?_, ?_, ?_, ?_, by decide, by decide, by decide, by decide⟩
  · intro age d hne hd
    have hclean : cleanedGroup (d ++ ['+']) = d ++ ['+'] := by
      rw [cleanedGroup_append, cleanedGroup_digits hd]
      rfl
    simp only [age_in_group, hclean, List.getLast?_concat, if_pos rfl,
      List.dropLast_concat, pyInt_digits hne hd]
    simp
  · intro age d hne hd
    have hclean : cleanedGroup (d ++ strL (r" and over")) = d ++ strL (r"andover") := by
      rw [cleanedGroup_append, cleanedGroup_digits hd]
      rfl
    have hsplit : d ++ strL (r"andover") = (d ++ strL (r"andove")) ++ ['r'] := by
      rw [List.append_assoc]
      rfl
    have hlast : (d ++ strL (r"andover")).getLast? = some 'r' := by
      rw [hsplit, List.getLast?_concat]
    have hruns : digitRuns (d ++ strL (r"andover")) = [d] :=
      digitRuns_digits_append hne hd (by decide)
    simp only [age_in_group, hclean, hlast]
    rw [if_neg (by simp), if_pos (containsSub_append_self d (strL (r"andover"))), hruns]
  · intro age da db hna hda hnb hdb
    have hclean : cleanedGroup (da ++ '-' :: db) = da ++ '-' :: db := by
      have h1 : ('-' :: db) = strL (r"-") ++ db := rfl
      rw [h1, ← List.append_assoc, cleanedGroup_append, cleanedGroup_append,
        cleanedGroup_digits hda, cleanedGroup_digits hdb]
      rfl
    obtain ⟨e, he1, he2⟩ := getLast?_digit hnb hdb
    have hlast : (da ++ '-' :: db).getLast? = some e := by
      rw [List.getLast?_append_cons]
      cases db with
      | nil => exact absurd rfl hnb
      | cons b bs => rw [List.getLast?_cons_cons]; exact he1
    have hne2 : some e ≠ some '+' := by
      intro hc
      simp only [Option.some.injEq] at hc
      have h2 := isDigitC_bounds he2
      have h3 : ('+').toNat = 43 := by decide
      exact char_ne_of_toNat (by omega) hc
    have hand : containsSub (strL (r"andover")) (da ++ '-' :: db) = false := by
      have hpat : strL (r"andover") = 'a' :: strL (r"ndover") := rfl
      rw [hpat]
      refine containsSub_eq_false (fun c hc => ?_)
      have ha : ('a').toNat = 97 := by decide
      simp only [List.mem_append, List.mem_cons] at hc
      rcases hc with h1 | h2 | h3
      · have := isDigitC_bounds (hda c h1)
        exact char_ne_of_toNat (by omega)
      · subst h2
        decide
      · have := isDigitC_bounds (hdb c h3)
        exact char_ne_of_toNat (by omega)
    have hruns : digitRuns (da ++ '-' :: db) = [da, db] :=
      digitRuns_range hna hda hnb hdb (by decide)
    simp only [age_in_group, hclean, hlast]
    rw [if_neg hne2, if_neg (by simp [hand]), hruns]
    simp [pyInt_digits]
  · intro age d hne hd
    have hclean : cleanedGroup d = d := cleanedGroup_digits hd
    obtain ⟨e, he1, he2⟩ := getLast?_digit hne hd
    have hne2 : some e ≠ some '+' := by
      intro hc
      simp only [Option.some.injEq] at hc
      have h2 := isDigitC_bounds he2
      have h3 : ('+').toNat = 43 := by decide
      exact char_ne_of_toNat (by omega) hc
    have hand : containsSub (strL (r"andover")) d = false := by
      have hpat : strL (r"andover") = 'a' :: strL (r"ndover") := rfl
      rw [hpat]
      refine containsSub_eq_false (fun c hc => ?_)
      have ha : ('a').toNat = 97 := by decide
      have := isDigitC_bounds (hd c hc)
      exact char_ne_of_toNat (by omega)
    have hruns : digitRuns d = [d] := digitRuns_digits hne hd
    simp only [age_in_group, hclean, he1]
    rw [if_neg hne2, if_neg (by simp [hand]), hruns]
    simp

/-- Witness for C4 at concrete inputs of each shape. -/
theorem C4_age_in_group_shapes_witness :
    age_in_group 85 (strL (r"80") ++ ['+']) = some true
    ∧ age_in_group 85 (strL (r"80") ++ strL (r" and over")) = some true
    ∧ age_in_group 42 (strL (r"40") ++ '-' :: strL (r"44")) = some true
    ∧ age_in_group 42 (strL (r"18")) = some false := by
  refine ⟨?_, ?_, ?_, ?_⟩
  · have h := C4_age_in_group_shapes.1 85 (strL (r"80")) (by decide) (by decide)
    rw [h]
    decide
  · have h := C4_age_in_group_shapes.2.1 85 (strL (r"80")) (by decide) (by decide)
    rw [h]
    decide
  · have h := C4_age_in_group_shapes.2.2.1 42 (strL (r"40")) (strL (r"44"))
      (by decide) (by decide) (by decide) (by decide)
    rw [h]
    decide
  · have h := C4_age_in_group_shapes.2.2.2.1 42 (strL (r"18")) (by decide) (by decide)
    rw [h]
    decide

/-- Claim C7 counterexample: the label consisting of the single character
plus has an unrecognized shape, yet age_in_group raises an uncaught
ValueError on it (the int conversion of the empty prefix), modelled by the
none result; it neither returns false nor avoids the exception. -/
theorem C7_counterexample_plus_label :
    age_in_group 30 (strL (r"+")) = none
    ∧ age_in_group 30 (strL (r"+")) ≠ some false := by decide

/-- Claim C7, amended: age_in_group raises exactly when the cleaned label
ends in a plus sign whose preceding text is not an integer literal; on every
label that, after cleaning, does not end in a plus sign, does not contain
the text andover, and holds either no digit run or more than two digit runs,
it returns false without raising. -/
theorem C7_unrecognized_labels :
    (∀ (age : Int) (label : Str), age_in_group age label = none ↔
      ((cleanedGroup label).getLast? = some '+'
        ∧ pyInt (cleanedGroup label).dropLast = none))
    ∧ (∀ (age : Int) (label : Str),
        (cleanedGroup label).getLast? ≠ some '+' →
        containsSub (strL (r"andover")) (cleanedGroup label) = false →
        ((digitRuns (cleanedGroup label)).length = 0
          ∨ 3 ≤ (digitRuns (cleanedGroup label)).length) →
        age_in_group age label = some false) := by
  constructor
  · intro age label
    simp only [age_in_group]
    by_cases h1 : (cleanedGroup label).getLast? = some '+'
    · rw [if_pos h1]
      rcases hp : pyInt (cleanedGroup label).dropLast with _ | n
      · simp [h1, hp]
      · simp [h1, hp]
    · rw [if_neg h1]
      by_cases h2 : containsSub (strL (r"andover")) (cleanedGroup label) = true
      · rw [if_pos h2]
        rcases hdr : digitRuns (cleanedGroup label) with _ | ⟨n0, rest⟩ <;>
          simp [h1]
      · rw [if_neg h2]
        rcases hdr : digitRuns (cleanedGroup label) with
          _ | ⟨a, _ | ⟨b, _ | ⟨c, rest⟩⟩⟩ <;> simp [h1]
  · intro age label h1 h2 h3
    simp only [age_in_group]
    rw [if_neg h1, if_neg (by simp [h2])]
    rcases hdr : digitRuns (cleanedGroup label) with
      _ | ⟨a, _ | ⟨b, _ | ⟨c, rest⟩⟩⟩
    · simp
    · rw [hdr] at h3
      simp at h3
    · rw [hdr] at h3
      simp at h3
    · simp

/-- Witness for C7 at concrete inputs: a label of letters only returns
false, and a well-formed plus label does not raise. -/
theorem C7_unrecognized_labels_witness :
    age_in_group 30 (strL (r"elite")) = some false
    ∧ (age_in_group 30 (strL (r"80+")) = none ↔
        ((cleanedGroup (strL (r"80+"))).getLast? = some '+'
          ∧ pyInt (cleanedGroup (strL (r"80+"))).dropLast = none)) :=
  ⟨C7_unrecognized_labels.2 30 (strL (r"elite")) (by decide) (by decide)
    (by decide),
   C7_unrecognized_labels.1 30 (strL (r"80+"))⟩

/-! Lemmas for the reconciliation store. -/

/-- The uniqueness invariant of dbo.QualifyingTimes: at most one stored row
per (AgeGroup, Location) key. -/
def qtInv (tbl : List QTRow) : Prop :=
  ∀ ag loc : Str, (tbl.filter (qtKeyMatch (some ag) (some loc))).length ≤ 1

theorem sqlEqS_some_iff {a : Option Str} {b : Str} :
    sqlEqS a (some b) = true ↔ a = some b := by
  cases a <;> simp [sqlEqS]

theorem sqlEqS_none (a : Option Str) : sqlEqS a none = false := by
  cases a <;> rfl

theorem sqlEqI_none (a : Option Int) : sqlEqI a none = false := by
  cases a <;> rfl

theorem qtKeyMatch_iff {r : QTRow} {ag loc : Str} :
    qtKeyMatch (some ag) (some loc) r = true
      ↔ r.ageGroup = some ag ∧ r.location = some loc := by
  simp [qtKeyMatch, sqlEqS_some_iff]

theorem qtKeyMatch_setFields (pAg pLoc : Option Str) (w m : Str) (r : QTRow) :
    qtKeyMatch pAg pLoc (qtSetFields w m r) = qtKeyMatch pAg pLoc r := rfl

theorem qtKeyMatch_new (ag loc : Str) (w m : Str) :
    qtKeyMatch (some ag) (some loc) (qtNewRow (some ag) (some loc) w m) = true :=
  qtKeyMatch_iff.mpr ⟨rfl, rfl⟩

theorem qtKeyMatch_update_pres (pAg pLoc qAg qLoc : Option Str) (w m : Str)
    (r : QTRow) :
    qtKeyMatch pAg pLoc (if qtKeyMatch qAg qLoc r then qtSetFields w m r else r)
      = qtKeyMatch pAg pLoc r := by
  by_cases h : qtKeyMatch qAg qLoc r = true
  · rw [if_pos h, qtKeyMatch_setFields]
  · rw [if_neg h]

theorem filter_map_pres {p : QTRow → Bool} {g : QTRow → QTRow}
    (hg : ∀ r, p (g r) = p r) :
    ∀ l : List QTRow, (l.map g).filter p = (l.filter p).map g := by
  intro l
  induction l with
  | nil => rfl
  | cons r rs ih =>
    by_cases h : p r = true
    · simp only [List.map_cons, List.filter_cons, hg r, h, if_pos]
      rw [ih]
    · simp only [List.map_cons, List.filter_cons, hg r, h]
      simpa using ih

theorem map_update_id {ag loc w m : Str} {l : List QTRow}
    (h : ∀ r ∈ l, qtKeyMatch (some ag) (some loc) r = true →
      r = qtNewRow (some ag) (some loc) w m) :
    l.map (fun r => if qtKeyMatch (some ag) (some loc) r then qtSetFields w m r
      else r) = l := by
  have hid : ∀ r ∈ l,
      (if qtKeyMatch (some ag) (some loc) r then qtSetFields w m r else r) = r := by
    intro r hr
    by_cases hk : qtKeyMatch (some ag) (some loc) r = true
    · rw [if_pos hk, h r hr hk]
      rfl
    · rw [if_neg hk]
  rw [List.map_congr_left hid]
  simp

/-- Claim C3: on a store satisfying the uniqueness invariant, the upsert of a
record carrying its natural key preserves the invariant, updates in place
when the key exists and appends exactly one row when it does not, is
idempotent, and leaves exactly one row under the key, holding the latest
written field values. -/
theorem C3_upsert_invariant (tbl tbl2 : List QTRow) (ag loc w m : Str)
    (hInv : qtInv tbl)
    (hrun : insert_qualifying_times_row tbl ⟨some ag, some loc, some w, some m⟩
      = some tbl2) :
    qtInv tbl2
    ∧ (0 < (tbl.filter (qtKeyMatch (some ag) (some loc))).length →
        tbl2 = tbl.map (fun r =>
          if qtKeyMatch (some ag) (some loc) r then qtSetFields w m r else r))
    ∧ ((tbl.filter (qtKeyMatch (some ag) (some loc))).length = 0 →
        tbl2 = tbl ++ [qtNewRow (some ag) (some loc) w m])
    ∧ insert_qualifying_times_row tbl2 ⟨some ag, some loc, some w, some m⟩
        = some tbl2
    ∧ (tbl2.filter (qtKeyMatch (some ag) (some loc))).length = 1
    ∧ (∀ r ∈ tbl2, qtKeyMatch (some ag) (some loc) r = true →
        r = qtNewRow (some ag) (some loc) w m) := by
  simp only [insert_qualifying_times_row] at hrun
  by_cases hex : 0 < (tbl.filter (qtKeyMatch (some ag) (some loc))).length
  · rw [if_pos hex] at hrun
    simp only [Option.some.injEq] at hrun
    subst hrun
    have hpres : ∀ r, qtKeyMatch (some ag) (some loc)
        (if qtKeyMatch (some ag) (some loc) r then qtSetFields w m r else r)
        = qtKeyMatch (some ag) (some loc) r :=
      fun r => qtKeyMatch_update_pres _ _ _ _ w m r
    have hlatest : ∀ r ∈ tbl.map (fun r =>
        if qtKeyMatch (some ag) (some loc) r then qtSetFields w m r else r),
        qtKeyMatch (some ag) (some loc) r = true →
        r = qtNewRow (some ag) (some loc) w m := by
      intro r hr hkey
      obtain ⟨r0, hr0, rfl⟩ := List.mem_map.mp hr
      have hkey0 : qtKeyMatch (some ag) (some loc) r0 = true := by
        rw [← hpres r0]
        exact hkey
      obtain ⟨h1, h2⟩ := qtKeyMatch_iff.mp hkey0
      rw [if_pos hkey0]
      cases r0 with
      | mk a0 w0 m0 l0 ws0 ms0 =>
        simp only [QTRow.mk.injEq] at h1 h2 ⊢
        simp [qtSetFields, qtNewRow, h1, h2]
    have hcount : ((tbl.map (fun r =>
        if qtKeyMatch (some ag) (some loc) r then qtSetFields w m r else r)).filter
          (qtKeyMatch (some ag) (some loc))).length = 1 := by
      rw [filter_map_pres (fun r =>
        qtKeyMatch_update_pres (some ag) (some loc) (some ag) (some loc) w m r)]
      rw [List.length_map]
      have := hInv ag loc
      omega
    refine ⟨?_, fun _ => rfl, ?_, ?_, hcount, hlatest⟩
    · intro ag' loc'
      rw [filter_map_pres (fun r =>
        qtKeyMatch_update_pres (some ag') (some loc') (some ag) (some loc) w m r)]
      rw [List.length_map]
      exact hInv ag' loc'
    · intro h0
      omega
    · simp only [insert_qualifying_times_row]
      rw [if_pos (show 0 < ((tbl.map (fun r =>
          if qtKeyMatch (some ag) (some loc) r then qtSetFields w m r
          else r)).filter (qtKeyMatch (some ag) (some loc))).length by omega)]
      rw [map_update_id hlatest]
  · rw [if_neg hex] at hrun
    simp only [Option.some.injEq] at hrun
    subst hrun
    have hfil0 : tbl.filter (qtKeyMatch (some ag) (some loc)) = [] := by
      have hlen0 : (tbl.filter (qtKeyMatch (some ag) (some loc))).length = 0 := by
        omega
      exact List.length_eq_zero.mp hlen0
    have hknew := qtKeyMatch_new ag loc w m
    have hfil2 : (tbl ++ [qtNewRow (some ag) (some loc) w m]).filter
        (qtKeyMatch (some ag) (some loc))
        = [qtNewRow (some ag) (some loc) w m] := by
      rw [List.filter_append, hfil0]
      simp [List.filter, hknew]
    have hlatest : ∀ r ∈ tbl ++ [qtNewRow (some ag) (some loc) w m],
        qtKeyMatch (some ag) (some loc) r = true →
        r = qtNewRow (some ag) (some loc) w m := by
      intro r hr hkey
      rcases List.mem_append.mp hr with h1 | h2
      · exfalso
        have : r ∈ tbl.filter (qtKeyMatch (some ag) (some loc)) :=
          List.mem_filter.mpr ⟨h1, hkey⟩
        rw [hfil0] at this
        simp at this
      · simpa using h2
    refine ⟨?_, ?_, fun _ => rfl, ?_, by rw [hfil2]; rfl, hlatest⟩
    · intro ag' loc'
      rw [List.filter_append, List.length_append]
      by_cases hkey' : ag' = ag ∧ loc' = loc
      · obtain ⟨rfl, rfl⟩ := hkey'
        rw [hfil0]
        simp [List.filter, hknew]
      · have hnk : qtKeyMatch (some ag') (some loc')
            (qtNewRow (some ag) (some loc) w m) = false := by
          by_contra hc
          have hc2 : qtKeyMatch (some ag') (some loc')
              (qtNewRow (some ag) (some loc) w m) = true := by
            revert hc
            cases qtKeyMatch (some ag') (some loc')
              (qtNewRow (some ag) (some loc) w m) <;> simp
          obtain ⟨h1, h2⟩ := qtKeyMatch_iff.mp hc2
          simp only [qtNewRow, Option.some.injEq] at h1 h2
          exact hkey' ⟨h1.symm, h2.symm⟩
        have : List.filter (qtKeyMatch (some ag') (some loc'))
            [qtNewRow (some ag) (some loc) w m] = [] := by
          simp [List.filter, hnk]
        rw [this]
        have := hInv ag' loc'
        simp only [List.length_nil]
        omega
    · intro h0
      exact absurd (by omega : 0 < (tbl.filter
        (qtKeyMatch (some ag) (some loc))).length) hex
    · simp only [insert_qualifying_times_row]
      rw [if_pos (show 0 < ((tbl ++ [qtNewRow (some ag) (some loc) w m]).filter
          (qtKeyMatch (some ag) (some loc))).length by rw [hfil2]; simp)]
      rw [map_update_id hlatest]

/-- Witness for C3: upserting into the empty store, which satisfies the
invariant, inserts exactly one row. -/
theorem C3_upsert_invariant_witness :
    qtInv []
    ∧ (insert_qualifying_times_row []
        ⟨some (strL (r"45-49")), some (strL (r"Boston")),
         some (strL (r"3hrs 35min 00sec")), some (strL (r"3hrs 05min 00sec"))⟩
        = some [qtNewRow (some (strL (r"45-49"))) (some (strL (r"Boston")))
            (strL (r"3hrs 35min 00sec")) (strL (r"3hrs 05min 00sec"))])
    ∧ ([qtNewRow (some (strL (r"45-49"))) (some (strL (r"Boston")))
          (strL (r"3hrs 35min 00sec")) (strL (r"3hrs 05min 00sec"))].filter
        (qtKeyMatch (some (strL (r"45-49"))) (some (strL (r"Boston"))))).length
        = 1 := by
  have hinv : qtInv [] := by
    intro ag loc
    simp [qtInv]
  have hrun : insert_qualifying_times_row []
      ⟨some (strL (r"45-49")), some (strL (r"Boston")),
       some (strL (r"3hrs 35min 00sec")), some (strL (r"3hrs 05min 00sec"))⟩
      = some ((
        [] : List QTRow) ++ [qtNewRow (some (strL (r"45-49")))
          (some (strL (r"Boston"))) (strL (r"3hrs 35min 00sec"))
          (strL (r"3hrs 05min 00sec"))]) := by decide
  have h := C3_upsert_invariant [] _ (strL (r"45-49")) (strL (r"Boston"))
    (strL (r"3hrs 35min 00sec")) (strL (r"3hrs 05min 00sec")) hinv hrun
  exact ⟨hinv, by rw [hrun]; rfl, h.2.2.2.2.1⟩

/-- Claim C9 counterexample: a qualifying-times record with a missing (NULL)
AgeGroup key is not rejected.  No ValidationError exists anywhere in the
code; the record reaches storage (COUNT finds nothing, NULL matching no row)
and is inserted, so the operation succeeds and storage is changed. -/
theorem C9_counterexample_null_key :
    insert_qualifying_times_row []
      ⟨none, some (strL (r"Boston")), some (strL (r"3hrs 25min 00sec")),
       some (strL (r"3hrs 25min 00sec"))⟩
      = some [⟨none, some (strL (r"3hrs 25min 00sec")),
          some (strL (r"3hrs 25min 00sec")), some (strL (r"Boston")),
          some 12300, some 12300⟩]
    ∧ insert_qualifying_times_row []
        ⟨none, some (strL (r"Boston")), some (strL (r"3hrs 25min 00sec")),
         some (strL (r"3hrs 25min 00sec"))⟩ ≠ some []
    ∧ insert_qualifying_times_row []
        ⟨none, some (strL (r"Boston")), some (strL (r"3hrs 25min 00sec")),
         some (strL (r"3hrs 25min 00sec"))⟩ ≠ none := by decide

/-- Claim C9, amended: neither upsert validates the natural key.  A
qualifying-times record whose AgeGroup is missing is passed to storage: its
NULL key matches no stored row under SQL comparison, so it is appended as a
new row; likewise a race-metadata record whose RaceYear is missing is
appended.  No ValidationError is raised and storage does change. -/
theorem C9_null_key_upserts :
    (∀ (tbl : List QTRow) (loc : Option Str) (wt mt : Str),
      insert_qualifying_times_row tbl ⟨none, loc, some wt, some mt⟩
        = some (tbl ++ [qtNewRow none loc wt mt]))
    ∧ (∀ (tbl : List RDRow) (loc qt lt lu sd ph : Option Str),
        insert_racedata_row tbl ⟨none, loc, qt, lt, lu, sd, ph⟩
          = tbl ++ [⟨none, loc, qt, lt, lu, sd, ph⟩]) := by
  constructor
  · intro tbl loc wt mt
    simp only [insert_qualifying_times_row]
    have hf : tbl.filter (qtKeyMatch none loc) = [] := by
      have hk : ∀ r ∈ tbl, ¬(qtKeyMatch none loc r = true) := by
        intro r _
        simp [qtKeyMatch, sqlEqS_none]
      simpa using List.filter_eq_nil.mpr hk
    rw [if_neg (by rw [hf]; simp)]
  · intro tbl loc qt lt lu sd ph
    simp only [insert_racedata_row]
    have hf : tbl.filter (rdKeyMatch none loc) = [] := by
      have hk : ∀ r ∈ tbl, ¬(rdKeyMatch none loc r = true) := by
        intro r _
        simp [rdKeyMatch, sqlEqI_none]
      simpa using List.filter_eq_nil.mpr hk
    rw [if_neg (by rw [hf]; simp)]

/-- Claim C8: whenever query_top_times returns rows, it returns at most
limit of them, every returned row carries the requested age group and
location, and the rows are the projection of a key-matching row list sorted
ascending by the selected seconds column with NULL seconds last. -/
theorem C8_top_times_bounds (tbl : List QTRow)
    (location ageGroup gender : Str) (limit : Nat)
    (out : List (Option Str × Option Str × Option Str))
    (hrun : query_top_times tbl location ageGroup gender limit = some out) :
    out.length ≤ limit
    ∧ (∀ tr ∈ out, tr.1 = some ageGroup ∧ tr.2.2 = some location)
    ∧ (∃ isWomen : Bool,
        out = ((query_top_times_rows tbl location ageGroup isWomen).take
          limit).map
            (fun r => (r.ageGroup, genderCol isWomen r, r.location))
        ∧ List.Pairwise (qtOrder isWomen)
            ((query_top_times_rows tbl location ageGroup isWomen).take limit)
        ∧ ∀ r ∈ query_top_times_rows tbl location ageGroup isWomen,
            qtKeyMatch (some ageGroup) (some location) r = true) := by
  simp only [query_top_times] at hrun
  by_cases hargs : location = [] ∨ ageGroup = [] ∨ gender = []
  · rw [if_pos hargs] at hrun
    exact absurd hrun (by simp)
  · rw [if_neg hargs] at hrun
    simp only [Option.some.injEq] at hrun
    subst hrun
    have hmem : ∀ (iw : Bool),
        ∀ r ∈ query_top_times_rows tbl location ageGroup iw,
        qtKeyMatch (some ageGroup) (some location) r = true := by
      intro iw r hr
      have h2 : r ∈ tbl.filter (qtKeyMatch (some ageGroup) (some location)) :=
        (List.perm_insertionSort _ _).mem_iff.mp hr
      exact List.of_mem_filter h2
    refine ⟨?_, ?_, ?_⟩
    · rw [List.length_map]
      exact List.length_take_le limit _
    · intro tr htr
      obtain ⟨r, hr, rfl⟩ := List.mem_map.mp htr
      have hr2 := List.mem_of_mem_take hr
      obtain ⟨h1, h2⟩ := qtKeyMatch_iff.mp (hmem _ r hr2)
      exact ⟨h1, h2⟩
    · refine ⟨_, rfl, ?_, hmem _⟩
      have hsorted := List.sorted_insertionSort
        (qtOrder (decide (pyLower gender = strL (r"women"))))
        (tbl.filter (qtKeyMatch (some ageGroup) (some location)))
      exact hsorted.sublist (List.take_sublist _ _)

/-- Witness for C8 on a one-row store. -/
theorem C8_top_times_bounds_witness :
    ([(some (strL (r"45-49")), some (strL (r"3:35:00")),
        some (strL (r"Boston")))] :
      List (Option Str × Option Str × Option Str)).length ≤ 5
    ∧ (∀ tr ∈ ([(some (strL (r"45-49")), some (strL (r"3:35:00")),
          some (strL (r"Boston")))] :
        List (Option Str × Option Str × Option Str)),
        tr.1 = some (strL (r"45-49")) ∧ tr.2.2 = some (strL (r"Boston"))) := by
  have h := C8_top_times_bounds
    [⟨some (strL (r"45-49")), some (strL (r"3:35:00")),
      some (strL (r"2:50:00")), some (strL (r"Boston")),
      some 12900, some 10200⟩]
    (strL (r"Boston")) (strL (r"45-49")) (strL (r"Women")) 5
    [(some (strL (r"45-49")), some (strL (r"3:35:00")), some (strL (r"Boston")))]
    (by decide)
  exact ⟨h.1, h.2.1⟩

/-! Lemmas for the age-group classifier. -/

theorem lookupGroup_eq_none_iff (gs : List (Int × Int)) (age : Int) :
    lookupGroup gs age = none ↔ ∀ g ∈ gs, ¬(g.1 ≤ age ∧ age ≤ g.2) := by
  induction gs with
  | nil => simp [lookupGroup]
  | cons g0 rest ih =>
    rw [lookupGroup]
    by_cases h : g0.1 ≤ age ∧ age ≤ g0.2
    · rw [if_pos h]
      constructor
      · intro hc
        exact absurd hc (by simp)
      · intro hall
        exact absurd h (hall g0 (by simp))
    · rw [if_neg h, ih]
      constructor
      · intro hall g hg
        rcases List.mem_cons.mp hg with rfl | hmem
        · exact h
        · exact hall g hmem
      · intro hall g hg
        exact hall g (by simp [hg])

theorem lookupGroup_some {gs : List (Int × Int)} {age : Int} {g : Int × Int}
    (h : lookupGroup gs age = some g) :
    g ∈ gs ∧ g.1 ≤ age ∧ age ≤ g.2 := by
  induction gs with
  | nil => exact absurd h (by simp [lookupGroup])
  | cons g0 rest ih =>
    by_cases hc : g0.1 ≤ age ∧ age ≤ g0.2
    · rw [lookupGroup, if_pos hc] at h
      simp only [Option.some.injEq] at h
      subst h
      exact ⟨by simp, hc⟩
    · rw [lookupGroup, if_neg hc] at h
      obtain ⟨h1, h2⟩ := ih h
      exact ⟨by simp [h1], h2⟩

theorem digitChar_isDigit {k : Nat} (h : k < 10) : isDigitC (digitChar k) = true := by
  interval_cases k <;> decide

theorem natReprAux_digits :
    ∀ (fuel n : Nat), n < 10 ^ fuel →
      ∀ c ∈ natReprAux fuel n, isDigitC c = true := by
  intro fuel
  induction fuel with
  | zero =>
    intro n _ c hc
    simp [natReprAux] at hc
  | succ f ih =>
    intro n hn c hc
    by_cases h10 : n < 10
    · rw [natReprAux, if_pos h10] at hc
      simp only [List.mem_singleton] at hc
      subst hc
      exact digitChar_isDigit h10
    · rw [natReprAux, if_neg h10] at hc
      rcases List.mem_append.mp hc with h1 | h2
      · refine ih (n / 10) ?_ c h1
        have hpow : 10 ^ (f + 1) = 10 * 10 ^ f := by ring
        rw [hpow] at hn
        omega
      · simp only [List.mem_singleton] at h2
        subst h2
        exact digitChar_isDigit (by omega)

theorem natRepr_ne_nil (n : Nat) : natRepr n ≠ [] := by
  unfold natRepr natReprAux
  by_cases h : n < 10
  · rw [if_pos h]
    simp
  · rw [if_neg h]
    simp

theorem natRepr_digits (n : Nat) : ∀ c ∈ natRepr n, isDigitC c = true := by
  refine natReprAux_digits (n + 1) n ?_
  have h1 : n < 2 ^ n := Nat.lt_two_pow n
  have h2 : (2 : Nat) ^ n ≤ 10 ^ n := Nat.pow_le_pow_left (by omega) n
  have h3 : (10 : Nat) ^ n ≤ 10 ^ (n + 1) := Nat.pow_le_pow_right (by omega) (by omega)
  omega

theorem intRepr_head_ne_unknown (i : Int) :
    ∃ c rest, intRepr i = c :: rest ∧ c ≠ 'U' := by
  unfold intRepr
  by_cases h : i < 0
  · rw [if_pos h]
    exact ⟨'-', natRepr i.natAbs, rfl, by decide⟩
  · rw [if_neg h]
    rcases hrep : natRepr i.natAbs with _ | ⟨c, rest⟩
    · exact absurd hrep (natRepr_ne_nil _)
    · refine ⟨c, rest, rfl, ?_⟩
      have hd := natRepr_digits i.natAbs c (by rw [hrep]; simp)
      have hb := isDigitC_bounds hd
      have hu : ('U').toNat = 85 := by decide
      exact char_ne_of_toNat (by omega)

theorem fmtRange_ne_unknown (lo hi : Int) :
    fmtRange lo hi ≠ strL (r"Unknown") := by
  obtain ⟨c, rest, hrep, hne⟩ := intRepr_head_ne_unknown lo
  unfold fmtRange
  rw [hrep]
  intro hcontra
  have hpat : strL (r"Unknown") = 'U' :: strL (r"nknown") := rfl
  rw [hpat, List.cons_append, List.cons.injEq] at hcontra
  exact hne hcontra.1

/-- Claim C6: get_age_group is a pure function of age and location with the
documented values on the examples, and it returns the literal Unknown
exactly when the normalized location is none of the recognized ones, or the
location uses the London or Boston-style bracket table and the age falls in
none of its brackets.  (The Tokyo and Berlin scheme assigns a five-year
bracket to every age by arithmetic, so no age misses it.) -/
theorem C6_age_group_classifier :
    get_age_group 27 (strL (r"Boston")) = strL (r"18-34")
    ∧ get_age_group 82 (strL (r"Boston")) = strL (r"80+")
    ∧ get_age_group 30 (strL (r"UnknownCity")) = strL (r"Unknown")
    ∧ (∀ (age : Int) (location : Str),
        get_age_group age location = strL (r"Unknown") ↔
          ((pyLower (pyStrip location) ≠ strL (r"london")
              ∧ pyLower (pyStrip location) ∉ bostonStyle
              ∧ pyLower (pyStrip location) ≠ strL (r"tokyo")
              ∧ pyLower (pyStrip location) ≠ strL (r"berlin"))
            ∨ (pyLower (pyStrip location) = strL (r"london")
                ∧ ∀ g ∈ londonGroups, ¬(g.1 ≤ age ∧ age ≤ g.2))
            ∨ (pyLower (pyStrip location) ∈ bostonStyle
                ∧ ∀ g ∈ bostonGroups, ¬(g.1 ≤ age ∧ age ≤ g.2)))) := by
  refine ⟨by decide, by decide, by decide, ?_⟩
  intro age location
  simp only [get_age_group]
  by_cases h1 : pyLower (pyStrip location) = strL (r"london")
  · rw [if_pos h1]
    have hnb : pyLower (pyStrip location) ∉ bostonStyle := by
      rw [h1]
      decide
    rcases hlg : lookupGroup londonGroups age with _ | g
    · constructor
      · intro _
        exact Or.inr (Or.inl ⟨h1, (lookupGroup_eq_none_iff _ _).mp hlg⟩)
      · intro _
        rfl
    · obtain ⟨hmem, hcond⟩ := lookupGroup_some hlg
      change (if g.2 < 90 then fmtRange g.1 g.2 else strL (r"90+"))
        = strL (r"Unknown") ↔ _
      constructor
      · intro hcontra
        exfalso
        by_cases h90 : g.2 < 90
        · rw [if_pos h90] at hcontra
          exact fmtRange_ne_unknown g.1 g.2 hcontra
        · rw [if_neg h90] at hcontra
          exact absurd hcontra (by decide)
      · rintro (⟨ha, _⟩ | ⟨_, hall⟩ | ⟨hb, _⟩)
        · exact absurd h1 ha
        · exact absurd hcond (hall g hmem)
        · exact absurd hb hnb
  · rw [if_neg h1]
    by_cases h2 : pyLower (pyStrip location) ∈ bostonStyle
    · rw [if_pos h2]
      rcases hlg : lookupGroup bostonGroups age with _ | g
      · constructor
        · intro _
          exact Or.inr (Or.inr ⟨h2, (lookupGroup_eq_none_iff _ _).mp hlg⟩)
        · intro _
          rfl
      · obtain ⟨hmem, hcond⟩ := lookupGroup_some hlg
        change (if g.1 = 80 then strL (r"80+") else fmtRange g.1 g.2)
          = strL (r"Unknown") ↔ _
        constructor
        · intro hcontra
          exfalso
          by_cases h80 : g.1 = 80
          · rw [if_pos h80] at hcontra
            exact absurd hcontra (by decide)
          · rw [if_neg h80] at hcontra
            exact fmtRange_ne_unknown g.1 g.2 hcontra
        · rintro (⟨_, hb, _⟩ | ⟨hl, _⟩ | ⟨_, hall⟩)
          · exact absurd h2 hb
          · exact absurd hl h1
          · exact absurd hcond (hall g hmem)
    · rw [if_neg h2]
      by_cases h3 : pyLower (pyStrip location) = strL (r"tokyo")
          ∨ pyLower (pyStrip location) = strL (r"berlin")
      · rw [if_pos h3]
        change (if (80 : Int) ≤ age then strL (r"80+")
          else fmtRange ((age.fdiv 5) * 5) ((age.fdiv 5) * 5 + 4))
          = strL (r"Unknown") ↔ _
        constructor
        · intro hcontra
          exfalso
          by_cases h80 : (80 : Int) ≤ age
          · rw [if_pos h80] at hcontra
            exact absurd hcontra (by decide)
          · rw [if_neg h80] at hcontra
            exact fmtRange_ne_unknown _ _ hcontra
        · rintro (⟨_, _, ht, hb⟩ | ⟨hl, _⟩ | ⟨hb2, _⟩)
          · rcases h3 with h4 | h4
            · exact absurd h4 ht
            · exact absurd h4 hb
          · exact absurd hl h1
          · exact absurd hb2 h2
      · rw [if_neg h3]
        constructor
        · intro _
          refine Or.inl ⟨h1, h2, ?_, ?_⟩
          · intro hc
            exact h3 (Or.inl hc)
          · intro hc
            exact h3 (Or.inr hc)
        · intro _
          rfl

/-- Claim C10: the pd.concat lines of run_pipeline reference the names
london_data, boston_data, london_times and boston_times, none of which is
bound in the function's local scope or at module level (the scrape results
were bound to the local datasets instead), so after the scraping stage every
invocation aborts with a NameError before any race-metadata or
qualifying-time row is written, for every combination of runner age, gender,
location, personal best, scrape result and storage state; the completion
branch is unreachable. -/
theorem C10_run_pipeline_name_error :
    (∀ n ∈ concatReferencedNames, n ∉ mainModuleNames ∧ n ∉ runPipelineLocals)
    ∧ strL (r"datasets") ∈ runPipelineLocals
    ∧ (∀ (age : Int) (gender : Str) (oloc pb : Option Str)
        (scraped : List (List RDRow × List QTInput)) (st : PipeState),
        run_pipeline age gender oloc pb scraped st = PipeResult.nameError st) := by
  refine ⟨by decide, by decide, ?_⟩
  intro age gender oloc pb scraped st
  simp only [run_pipeline]
  rw [if_neg (by decide)]

/-- Sanity checks of the embedding on the concrete inputs the sources and
the spec discuss: both grammars of time_to_seconds, the colon grammar of
parse_time_to_seconds, and the classifier tables. -/
theorem model_sanity :
    parse_time_to_seconds (some (strL (r"3:35:00"))) = some 12900
    ∧ parse_time_to_seconds (some (strL (r"3hrs 25min 00sec"))) = some 12300
    ∧ parse_time_to_seconds (some []) = none
    ∧ time_to_seconds (strL (r"sub 3:38")) = some 13080
    ∧ time_to_seconds (strL (r"3hrs 25min 00sec")) = some 12300
    ∧ time_to_seconds (strL (r"45sec")) = some 45
    ∧ age_in_group 85 (strL (r"80 and over")) = some true
    ∧ get_age_group 38 (strL (r"London")) = strL (r"18-39")
    ∧ get_age_group 95 (strL (r"London")) = strL (r"90+")
    ∧ get_age_group 43 (strL (r"tokyo")) = strL (r"40-44")
    ∧ get_age_group 17 (strL (r"Boston")) = strL (r"Unknown") := by decide

end MarathonQT
